import Mathlib

/-!
Shallow embedding of the Λ (Lambda) language scanner and resolver from
`src/scripts/lambda_lang.py`, together with the renderers
`translate_to_english` / `translate_to_chinese`.

Modelling conventions:

* Python strings are modelled as `List Char` (`Str`); renderings are also
  `List Char` so that local definitions (which are substrings of the input)
  and vocabulary renderings live in one type, as in Python where both are
  `str`.
* The vocabulary file `atoms.json` is loaded at process start in the source
  but is not part of the repository snapshot under `src/`; the lookup tables
  built from it (`CORE_LOOKUP`, `EXTENDED_LOOKUP`, `DISCOURSE_LOOKUP`,
  `EMOTION_LOOKUP`, `DOMAIN_LOOKUP`, and the `types` category) are therefore
  a parameter `Atoms` of every definition.  The `DISAMBIG` table is written
  out literally in the source and is embedded verbatim below.
* Python dictionaries keyed by strings are modelled as association lists
  with first-match lookup.  `CORE_LOOKUP` is built by updating a dict over
  the categories in order, so a later category overrides an earlier one on
  key collision; this is modelled by searching the categories in reverse
  build order (the spec's invariant says keys are unique inside a category).
* Python truthiness of an `Optional[str]` (`if info:`) is `truthy` below:
  the value is present and the string is non-empty.
* `str.isspace` / `[a-z]` character classes are modelled with
  `Char.isWhitespace` and an explicit ASCII `a`-`z` test (`azLower`),
  matching Python's behaviour on the ASCII inputs the notation uses.
* The scanner mutates the parser's context (`active_domains`,
  `definitions`); this is modelled by explicit state passing: `tokenize`
  returns the final context together with the token list.  The scanner
  loop is modelled with explicit fuel (`tokenizeFuel`); one unit of fuel
  is one iteration of the Python `while` loop, and `tokenizeFuel_some`
  below proves that `|input|` units always suffice, which is exactly the
  source's "advance by at least one character" termination argument.
-/

abbrev Str := List Char

def chars (s : String) : Str := s.toList

inductive Lang where
  | en
  | zh
deriving DecidableEq

structure Entry where
  en : Str
  zh : Str
deriving DecidableEq

def Entry.get (e : Entry) (lang : Lang) : Str :=
  match lang with
  | Lang.en => e.en
  | Lang.zh => e.zh

/-- First-match association-list lookup, the model of Python `dict[key]`. -/
def findAssoc {α : Type} : List (Str × α) → Str → Option α
  | [], _ => none
  | (k, v) :: rest, key => if k = key then some v else findAssoc rest key

def containsKey {α : Type} (l : List (Str × α)) (k : Str) : Bool :=
  (findAssoc l k).isSome

/-- A domain namespace: display name plus its private atom table
(`ATOMS["domains"][code]`). -/
structure Domain where
  name : Entry
  atoms : List (Str × Entry)
deriving DecidableEq

/-- The vocabulary tables built from `atoms.json` at process start.
The seven single-character categories feed `CORE_LOOKUP`; `extended`,
`discourse`, `emotion` and `domains` are kept separately, as in the source. -/
structure Atoms where
  types : List (Str × Entry)
  entities : List (Str × Entry)
  verbs : List (Str × Entry)
  modifiers : List (Str × Entry)
  time : List (Str × Entry)
  quantifiers : List (Str × Entry)
  aspect : List (Str × Entry)
  extended : List (Str × Entry)
  discourse : List (Str × Entry)
  emotion : List (Str × Entry)
  domains : List (Str × Domain)
deriving DecidableEq

/-- `CORE_LOOKUP[k]`: the dict is built over the categories in the order
types, entities, verbs, modifiers, time, quantifiers, aspect, with later
assignments overwriting earlier ones; first-match over the reversed
category order is the same function. -/
def coreFind (A : Atoms) (k : Str) : Option Entry :=
  findAssoc (A.aspect ++ A.quantifiers ++ A.time ++ A.modifiers
    ++ A.verbs ++ A.entities ++ A.types) k

/-- An entry of the `DISAMBIG` table from the source: the `"primary"`
rendering plus the marker → alternate-rendering map. -/
structure DisEntry where
  primary : Entry
  alts : List (Str × Entry)
deriving DecidableEq

/-- The `DISAMBIG` table, embedded verbatim from `src/scripts/lambda_lang.py`
lines 49-102. -/
def DISAMBIG : List (Str × DisEntry) :=
  [ (chars "de", ⟨⟨chars "decide", chars "决定"⟩,
      [(chars "E", ⟨chars "death", chars "死亡"⟩)]⟩),
    (chars "lo", ⟨⟨chars "love", chars "爱"⟩,
      [(chars "-", ⟨chars "lose", chars "失去"⟩)]⟩),
    (chars "fe", ⟨⟨chars "feel", chars "感觉"⟩,
      [(chars "E", ⟨chars "fear", chars "恐惧"⟩)]⟩),
    (chars "tr", ⟨⟨chars "truth", chars "真理"⟩,
      [(chars "V", ⟨chars "translate", chars "翻译"⟩)]⟩),
    (chars "wo", ⟨⟨chars "word", chars "词"⟩,
      [(chars "2", ⟨chars "world", chars "世界"⟩)]⟩),
    (chars "se", ⟨⟨chars "self", chars "自我"⟩,
      [(chars "V", ⟨chars "seek", chars "寻找"⟩)]⟩),
    (chars "be", ⟨⟨chars "belief", chars "信念"⟩,
      [(chars "V", ⟨chars "begin", chars "开始"⟩)]⟩),
    (chars "sh", ⟨⟨chars "share", chars "分享"⟩,
      [(chars "2", ⟨chars "show", chars "展示"⟩)]⟩),
    (chars "ch", ⟨⟨chars "change", chars "变化"⟩,
      [(chars "2", ⟨chars "choose", chars "选择"⟩)]⟩),
    (chars "ne", ⟨⟨chars "need", chars "需要"⟩,
      [(chars "S", ⟨chars "new", chars "新"⟩)]⟩),
    (chars "pr", ⟨⟨chars "process", chars "过程"⟩,
      [(chars "2", ⟨chars "precision", chars "精确"⟩)]⟩),
    (chars "ex", ⟨⟨chars "experience", chars "体验"⟩,
      [(chars "V", ⟨chars "express", chars "表达"⟩)]⟩),
    (chars "li", ⟨⟨chars "life", chars "生命"⟩,
      [(chars "V", ⟨chars "listen", chars "倾听"⟩)]⟩) ]

/-- Split a list at the first occurrence of `sep` (Python `split(sep, 1)`
when `sep` occurs); the separator itself is dropped. -/
def splitFirst (sep : Char) : Str → Str × Str
  | [] => ([], [])
  | c :: cs =>
    if c = sep then ([], cs)
    else
      let r := splitFirst sep cs
      (c :: r.1, r.2)

/-- Python `str.split(sep)`: splits on every occurrence, keeping empty
pieces (`"".split(sep) = [""]`). -/
def splitAll (sep : Char) : Str → List Str
  | [] => [[]]
  | c :: cs =>
    let r := splitAll sep cs
    if c = sep then [] :: r
    else
      match r with
      | h :: t => (c :: h) :: t
      | [] => [[c]]

/-- Python `str.strip()` (whitespace from both ends). -/
def stripWS (l : Str) : Str :=
  ((l.dropWhile Char.isWhitespace).reverse.dropWhile Char.isWhitespace).reverse

/-- Python `str.strip('"')` (all double quotes from both ends). -/
def stripQuotes (l : Str) : Str :=
  ((l.dropWhile (fun c => c = '"')).reverse.dropWhile (fun c => c = '"')).reverse

/-- `parse_disambig` from the source: split off a disambiguation marker.
A token containing `'` is split at the first `'`; otherwise a trailing `-`
is the `-` marker; otherwise there is no marker. -/
def parse_disambig (token : Str) : Str × Option Str :=
  if '\x27' ∈ token then
    let s := splitFirst '\x27' token
    (s.1, some s.2)
  else if token.getLast? = some '-' then (token.dropLast, some ['-'])
  else (token, none)

/-- The parser's mutable per-session state: `active_domains` and
`definitions` of `LambdaParser`.  `definitions` is an association list in
which a newer binding for a key shadows an older one, matching dict
overwrite on `define`. -/
structure Context where
  active_domains : List Str
  definitions : List (Str × Str)
deriving DecidableEq

def freshCtx : Context := ⟨[], []⟩

/-- `LambdaParser.set_domain`: activate a domain namespace; unknown codes
and already-active codes are silently ignored. -/
def set_domain (A : Atoms) (ctx : Context) (dom : Str) : Context :=
  if containsKey A.domains dom then
    if dom ∈ ctx.active_domains then ctx
    else { ctx with active_domains := ctx.active_domains ++ [dom] }
  else ctx

/-- `LambdaParser.define`: install a local definition (dict overwrite). -/
def define (ctx : Context) (k v : Str) : Context :=
  { ctx with definitions := (k, v) :: ctx.definitions }

/-- The domain-prefixed lookup step (`cd:fn`): only taken when `base`
contains a colon; failure of the inner membership tests falls through to
the rest of the chain, as in the source. -/
def domainColonFind (A : Atoms) (base : Str) (lang : Lang) : Option Str :=
  let p := splitFirst ':' base
  match findAssoc A.domains p.1 with
  | some dom =>
    match findAssoc dom.atoms p.2 with
    | some e => some (e.get lang)
    | none => none
  | none => none

/-- The active-domain lookup loop: first activated domain whose table
contains `base` wins.  (`set_domain` only ever activates known codes, so
the `none` branch for a missing domain is unreachable from the scanner;
Python indexes `DOMAIN_LOOKUP[domain]` directly.) -/
def activeFind (A : Atoms) : List Str → Str → Lang → Option Str
  | [], _, _ => none
  | d :: ds, base, lang =>
    match findAssoc A.domains d with
    | some dom =>
      match findAssoc dom.atoms base with
      | some e => some (e.get lang)
      | none => activeFind A ds base lang
    | none => activeFind A ds base lang

/-- `LambdaParser.lookup`: resolve a token in a rendering language through
the precedence chain — local definitions, disambiguation table, explicit
domain prefix, active domains in activation order, discourse, emotion,
extended, core. -/
def lookup (A : Atoms) (ctx : Context) (token : Str) (lang : Lang) : Option Str :=
  let p := parse_disambig token
  let base := p.1
  match findAssoc ctx.definitions base with
  | some v => some v
  | none =>
    match findAssoc DISAMBIG base with
    | some de =>
      match p.2 with
      | some m =>
        if m ≠ [] then
          match findAssoc de.alts m with
          | some e => some (e.get lang)
          | none => some (de.primary.get lang)
        else some (de.primary.get lang)
      | none => some (de.primary.get lang)
    | none =>
      match (if ':' ∈ base then domainColonFind A base lang else none) with
      | some r => some r
      | none =>
        match activeFind A ctx.active_domains base lang with
        | some r => some r
        | none =>
          match findAssoc A.discourse base with
          | some e => some (e.get lang)
          | none =>
            match findAssoc A.emotion base with
            | some e => some (e.get lang)
            | none =>
              match findAssoc A.extended base with
              | some e => some (e.get lang)
              | none =>
                match coreFind A base with
                | some e => some (e.get lang)
                | none => none

/-- Python truthiness of an `Optional[str]` result (`if info:`). -/
def truthy (o : Option Str) : Bool :=
  match o with
  | some s => !s.isEmpty
  | none => false

/-- Find the next `}` (Python `msg.find('}', i)` searching after the opening
brace): returns the enclosed text and the remainder after the `}`. -/
def findClose : Str → Option (Str × Str)
  | [] => none
  | c :: cs =>
    if c = '\x7d' then some ([], cs)
    else
      match findClose cs with
      | some r => some (c :: r.1, r.2)
      | none => none

/-- Handle the text of a `{...}` control block: `ns:` activates a domain,
`def:` installs comma-separated `key=value` local definitions (values are
whitespace-stripped, then double-quote-stripped); anything else only emits
the block token. -/
def processBlock (A : Atoms) (ctx : Context) (b : Str) : Context :=
  match b with
  | 'n' :: 's' :: ':' :: rest => set_domain A ctx rest
  | 'd' :: 'e' :: 'f' :: ':' :: rest =>
    (splitAll ',' rest).foldl
      (fun acc d =>
        if '=' ∈ d then
          let kv := splitFirst '=' d
          define acc (stripWS kv.1) (stripQuotes (stripWS kv.2))
        else acc)
      ctx
  | _ => ctx

/-- Python's regex character class `[a-z]`. -/
def azLower (c : Char) : Bool := 97 ≤ c.toNat && c.toNat ≤ 122

/-- The bracket characters of scanner step 3 (`msg[i] in "()[]"`). -/
def bracketChar (c : Char) : Bool :=
  c = '(' || c = ')' || c = '[' || c = ']'

/-- Brackets and braces together (`msg[j] in "()[]{}"`, the unknown-run
stop set). -/
def bracketBrace (c : Char) : Bool :=
  bracketChar c || c = '\x7b' || c = '\x7d'

/-- Length matched by `re.match(r'([a-z]{2,3}):([a-z]{2})', ...)` at the
start of the list: the greedy three-letter group is tried first, then the
two-letter group. -/
def domainTokenLen (l : Str) : Option Nat :=
  match l with
  | a :: b :: c :: d :: e :: f :: _ =>
    if azLower a && azLower b && azLower c && d = ':' && azLower e && azLower f then some 6
    else if azLower a && azLower b && c = ':' && azLower d && azLower e then some 5
    else none
  | [a, b, c, d, e] =>
    if azLower a && azLower b && c = ':' && azLower d && azLower e then some 5
    else none
  | _ => none

/-- A disambiguation marker character (`[EVS23]`). -/
def markerChar (c : Char) : Bool :=
  c = 'E' || c = 'V' || c = 'S' || c = '2' || c = '3'

/-- Length matched by `re.match(r"([a-z]{2})'([EVS23])|([a-z]{2})-", ...)`
at the start of the list: the quoted-marker alternative first, then the
trailing-dash alternative. -/
def disambigTokenLen (l : Str) : Option Nat :=
  match l with
  | a :: b :: c :: d :: _ =>
    if azLower a && azLower b && c = '\x27' && markerChar d then some 4
    else if azLower a && azLower b && c = '-' then some 3
    else none
  | [a, b, c] =>
    if azLower a && azLower b && c = '-' then some 3
    else none
  | _ => none

/-- The unknown-run stop test (scanner step 9): the run ends at whitespace,
a bracket or brace, a character whose single-character lookup succeeds
(Python truthiness), or a `types` key. -/
def stopChar (A : Atoms) (ctx : Context) (x : Char) : Bool :=
  x.isWhitespace || bracketBrace x || truthy (lookup A ctx [x] Lang.en)
    || containsKey A.types [x]

/-- The result of one iteration of the scanner loop: whether a token was
emitted, the consumed span (the emitted token, or the skipped whitespace
character), the updated context and the remaining input. -/
structure StepRes where
  isTok : Bool
  consumed : Str
  ctx : Context
  rest : Str
deriving DecidableEq

/-- Scanner steps 8-9: single-character token (lookup-resolvable or a
`types` key), else the greedy unknown literal run. -/
def stepSingle (A : Atoms) (ctx : Context) (c : Char) (cs : Str) : StepRes :=
  if truthy (lookup A ctx [c] Lang.en) then ⟨true, [c], ctx, cs⟩
  else if containsKey A.types [c] then ⟨true, [c], ctx, cs⟩
  else
    ⟨true, c :: cs.takeWhile (fun x => !stopChar A ctx x), ctx,
      cs.dropWhile (fun x => !stopChar A ctx x)⟩

/-- Scanner steps 3-7: bracket, domain-prefixed token, disambiguated token,
discourse/emotion pair, context-resolvable two-character token; otherwise
fall through to `stepSingle`. -/
def stepRest (A : Atoms) (ctx : Context) (c : Char) (cs : Str) : StepRes :=
  if bracketChar c then ⟨true, [c], ctx, cs⟩
  else
    match domainTokenLen (c :: cs) with
    | some n => ⟨true, (c :: cs).take n, ctx, (c :: cs).drop n⟩
    | none =>
      match disambigTokenLen (c :: cs) with
      | some n => ⟨true, (c :: cs).take n, ctx, (c :: cs).drop n⟩
      | none =>
        match cs with
        | d :: ds =>
          if containsKey A.discourse [c, d] || containsKey A.emotion [c, d] then
            ⟨true, [c, d], ctx, ds⟩
          else if azLower c && azLower d && truthy (lookup A ctx [c, d] Lang.en) then
            ⟨true, [c, d], ctx, ds⟩
          else stepSingle A ctx c cs
        | [] => stepSingle A ctx c []

/-- One iteration of the scanner `while` loop at a non-empty remainder
`c :: cs`: whitespace skip, then the `{...}` control block (falling through
when no `}` follows), then `stepRest`. -/
def step (A : Atoms) (ctx : Context) (c : Char) (cs : Str) : StepRes :=
  if c.isWhitespace then ⟨false, [c], ctx, cs⟩
  else if c = '\x7b' then
    match findClose cs with
    | some br => ⟨true, '\x7b' :: (br.1 ++ ['\x7d']), processBlock A ctx br.1, br.2⟩
    | none => stepRest A ctx c cs
  else stepRest A ctx c cs

/-- `LambdaParser.tokenize`, with explicit fuel (one unit per loop
iteration); returns `none` only if the fuel runs out, which
`tokenizeFuel_some` below shows cannot happen with `|input|` units. -/
def tokenizeFuel (A : Atoms) : Nat → Context → Str → Option (Context × List Str)
  | _, ctx, [] => some (ctx, [])
  | 0, _, _ :: _ => none
  | n + 1, ctx, c :: cs =>
    let s := step A ctx c cs
    match tokenizeFuel A n s.ctx s.rest with
    | some r => some (r.1, if s.isTok then s.consumed :: r.2 else r.2)
    | none => none

/-- `LambdaParser.tokenize`: the final context and the token list.  The
default value is dead code (`tokenizeFuel_some`). -/
def tokenize (A : Atoms) (ctx : Context) (l : Str) : Context × List Str :=
  (tokenizeFuel A l.length ctx l).getD (ctx, [])

/-- Instrumented scanner that also records the skipped whitespace: each
chunk is the span consumed by one loop iteration, tagged with whether it
was emitted as a token. -/
def chunksFuel (A : Atoms) : Nat → Context → Str → Option (Context × List (Bool × Str))
  | _, ctx, [] => some (ctx, [])
  | 0, _, _ :: _ => none
  | n + 1, ctx, c :: cs =>
    let s := step A ctx c cs
    match chunksFuel A n s.ctx s.rest with
    | some r => some (r.1, (s.isTok, s.consumed) :: r.2)
    | none => none

def tokenizeChunks (A : Atoms) (ctx : Context) (l : Str) : Context × List (Bool × Str) :=
  (chunksFuel A l.length ctx l).getD (ctx, [])

/-- Is a raw token a `{...}` block (`t.startswith('{') and t.endswith('}')`)? -/
def isBlock (t : Str) : Bool :=
  t.head? = some '\x7b' && t.getLast? = some '\x7d'

/-- Python substring containment `t in s`. -/
def infixOf (t : Str) : Str → Bool
  | [] => decide (t = [])
  | c :: cs => t.isPrefixOf (c :: cs) || infixOf t cs

/-- The body rendering of one non-block, non-type token in the renderers:
a truthy lookup result, else a literal bracket, else the raw token wrapped
in square brackets.  (`t in "()[]"` is Python substring containment.) -/
def bodyRender (A : Atoms) (ctx : Context) (lang : Lang) (t : Str) : Str :=
  match lookup A ctx t lang with
  | some info =>
    if info ≠ [] then info
    else if infixOf t (chars "()[]") then t
    else '[' :: (t ++ [']'])
  | none =>
    if infixOf t (chars "()[]") then t
    else '[' :: (t ++ [']'])

/-- The shared renderer loop of `translate_to_english` /
`translate_to_chinese`: accumulates the message-type rendering (overwritten
by each `types` token) and the list of body parts. -/
def renderFold (A : Atoms) (ctx : Context) (lang : Lang)
    (st : Str × List Str) : List Str → Str × List Str
  | [] => st
  | t :: ts =>
    if isBlock t then renderFold A ctx lang st ts
    else
      match findAssoc A.types t with
      | some e => renderFold A ctx lang (e.get lang, st.2) ts
      | none => renderFold A ctx lang (st.1, st.2 ++ [bodyRender A ctx lang t]) ts

/-- Assemble the final rendered string from message type and body. -/
def renderResult (mt : Str) (body : Str) : Str :=
  if mt ≠ [] then ('(' :: (mt ++ (')' :: ' ' :: []))) ++ body else body

/-- `translate_to_english`: fresh parser, tokenize, render with `" "` as
the part separator. -/
def translate_to_english (A : Atoms) (msg : Str) : Str :=
  let r := tokenize A freshCtx msg
  if r.2 = [] then []
  else
    let st := renderFold A r.1 Lang.en ([], []) r.2
    renderResult st.1 (List.intercalate (chars " ") st.2)

/-- `translate_to_chinese`: as above with `zh` renderings and no separator. -/
def translate_to_chinese (A : Atoms) (msg : Str) : Str :=
  let r := tokenize A freshCtx msg
  if r.2 = [] then []
  else
    let st := renderFold A r.1 Lang.zh ([], []) r.2
    renderResult st.1 (List.intercalate [] st.2)

/-- Modelled from the spec: the vocabulary file `atoms.json` is not part of
the repository snapshot (only the script that loads it is), so a concrete
instance of the tables is reconstructed from the spec's examples — the
`types` markers `?`/`!`/`.` (question, statement, command, §3 and §8), the
entities/verbs and the `/` modifier exercised by `"?Uk/co"` and `"!It>Ie"`
(§8), the `>>`/`<<` discourse pairs named in the source's comment, the
extended primaries duplicated by the disambiguation table (§3 invariant),
and the `cd` domain with `fn` (§4.3's `cd:fn` example) and `bg` resolving
to "bug" (§8: `"{ns:cd}!If/bg"`).  Renderings the spec does not fix are
placeholders; no claim below depends on them. -/
def specAtoms : Atoms :=
  { types := [ (chars "?", ⟨chars "query", chars "问"⟩),
               (chars "!", ⟨chars "statement", chars "陈述"⟩),
               (chars ".", ⟨chars "command", chars "命令"⟩) ],
    entities := [ (chars "I", ⟨chars "I", chars "我"⟩),
                  (chars "U", ⟨chars "you", chars "你"⟩) ],
    verbs := [ (chars "k", ⟨chars "know", chars "知道"⟩),
               (chars "t", ⟨chars "think", chars "思考"⟩) ],
    modifiers := [ (chars "/", ⟨chars "or", chars "或"⟩) ],
    time := [],
    quantifiers := [],
    aspect := [],
    extended := [ (chars "de", ⟨chars "decide", chars "决定"⟩),
                  (chars "lo", ⟨chars "love", chars "爱"⟩),
                  (chars "fe", ⟨chars "feel", chars "感觉"⟩),
                  (chars "co", ⟨chars "communicate", chars "交流"⟩) ],
    discourse := [ (chars ">>", ⟨chars "then", chars "然后"⟩),
                   (chars "<<", ⟨chars "because", chars "因为"⟩) ],
    emotion := [],
    domains := [ (chars "cd",
      ⟨⟨chars "code", chars "代码"⟩,
        [ (chars "fn", ⟨chars "function", chars "函数"⟩),
          (chars "bg", ⟨chars "bug", chars "错误"⟩) ]⟩) ] }

/-! ### Basic facts about the scanner step -/

theorem findClose_spec : ∀ (cs b r : Str), findClose cs = some (b, r) →
    cs = b ++ '\x7d' :: r ∧ '\x7d' ∉ b := by
  intro cs
  induction cs with
  | nil => intro b r h; simp [findClose] at h
  | cons c cs ih =>
    intro b r h
    unfold findClose at h
    by_cases hc : c = '\x7d'
    · rw [if_pos hc] at h
      simp only [Option.some.injEq, Prod.mk.injEq] at h
      obtain ⟨hb, hr⟩ := h
      subst hb; subst hr; subst hc
      simp
    · rw [if_neg hc] at h
      cases hfc : findClose cs with
      | none => rw [hfc] at h; simp at h
      | some pr =>
        rw [hfc] at h
        simp only [Option.some.injEq, Prod.mk.injEq] at h
        obtain ⟨hb, hr⟩ := h
        obtain ⟨h1, h2⟩ := ih pr.1 pr.2 (by rw [hfc])
        subst hb; subst hr
        constructor
        · rw [h1]; simp
        · simp only [List.mem_cons, not_or]
          exact ⟨fun hx => hc hx.symm, h2⟩

theorem findClose_append : ∀ (b r : Str), '\x7d' ∉ b →
    findClose (b ++ '\x7d' :: r) = some (b, r) := by
  intro b
  induction b with
  | nil => intro r _; simp [findClose]
  | cons c cs ih =>
    intro r h
    simp only [List.mem_cons, not_or] at h
    have hc : ¬c = '\x7d' := fun hx => h.1 hx.symm
    rw [List.cons_append]
    unfold findClose
    rw [if_neg hc, ih r h.2]

theorem domainTokenLen_cases (l : Str) (n : Nat) (h : domainTokenLen l = some n) :
    n = 5 ∨ n = 6 := by
  unfold domainTokenLen at h
  split at h
  · split at h
    · simp_all
    · split at h
      · simp_all
      · simp_all
  · split at h
    · simp_all
    · simp_all
  · simp_all

theorem disambigTokenLen_cases (l : Str) (n : Nat) (h : disambigTokenLen l = some n) :
    n = 3 ∨ n = 4 := by
  unfold disambigTokenLen at h
  split at h
  · split at h
    · simp_all
    · split at h
      · simp_all
      · simp_all
  · split at h
    · simp_all
    · simp_all
  · simp_all

theorem stepSingle_spec (A : Atoms) (ctx : Context) (c : Char) (cs : Str) :
    (stepSingle A ctx c cs).consumed ++ (stepSingle A ctx c cs).rest = c :: cs ∧
      (stepSingle A ctx c cs).consumed ≠ [] := by
  unfold stepSingle
  split
  · simp
  · split
    · simp
    · simp [List.takeWhile_append_dropWhile]

theorem stepSingle_isTok (A : Atoms) (ctx : Context) (c : Char) (cs : Str) :
    (stepSingle A ctx c cs).isTok = true := by
  unfold stepSingle
  split
  · rfl
  · split <;> rfl

theorem take_cons_ne_nil {c : Char} {cs : Str} {n : Nat} (h : n ≠ 0) :
    (c :: cs).take n ≠ [] := by
  cases n with
  | zero => exact absurd rfl h
  | succ m => simp

theorem stepRest_spec (A : Atoms) (ctx : Context) (c : Char) (cs : Str) :
    (stepRest A ctx c cs).consumed ++ (stepRest A ctx c cs).rest = c :: cs ∧
      (stepRest A ctx c cs).consumed ≠ [] := by
  unfold stepRest
  split
  · simp
  · split
    · rename_i n hd
      refine ⟨List.take_append_drop n (c :: cs), ?_⟩
      rcases domainTokenLen_cases _ _ hd with h | h <;> exact take_cons_ne_nil (by omega)
    · split
      · rename_i n ha
        refine ⟨List.take_append_drop n (c :: cs), ?_⟩
        rcases disambigTokenLen_cases _ _ ha with h | h <;> exact take_cons_ne_nil (by omega)
      · split
        · split
          · simp
          · split
            · simp
            · exact stepSingle_spec A ctx c _
        · exact stepSingle_spec A ctx c []

theorem stepRest_isTok (A : Atoms) (ctx : Context) (c : Char) (cs : Str) :
    (stepRest A ctx c cs).isTok = true := by
  unfold stepRest
  split
  · rfl
  · split
    · rfl
    · split
      · rfl
      · split
        · split
          · rfl
          · split
            · rfl
            · exact stepSingle_isTok A ctx c _
        · exact stepSingle_isTok A ctx c []

theorem step_spec (A : Atoms) (ctx : Context) (c : Char) (cs : Str) :
    (step A ctx c cs).consumed ++ (step A ctx c cs).rest = c :: cs ∧
      (step A ctx c cs).consumed ≠ [] := by
  unfold step
  split
  · simp
  · split
    · rename_i hc
      cases hfc : findClose cs with
      | none => exact stepRest_spec A ctx c cs
      | some br =>
        obtain ⟨h1, _⟩ := findClose_spec cs br.1 br.2 (by rw [hfc])
        subst hc
        refine ⟨?_, by simp⟩
        show ('\x7b' :: (br.1 ++ ['\x7d'])) ++ br.2 = '\x7b' :: cs
        rw [h1]
        simp
    · exact stepRest_spec A ctx c cs

theorem step_not_tok (A : Atoms) (ctx : Context) (c : Char) (cs : Str)
    (h : (step A ctx c cs).isTok = false) :
    (step A ctx c cs).consumed = [c] ∧ c.isWhitespace = true ∧
      (step A ctx c cs).ctx = ctx ∧ (step A ctx c cs).rest = cs := by
  by_cases hws : c.isWhitespace
  · unfold step
    rw [if_pos hws]
    exact ⟨rfl, hws, rfl, rfl⟩
  · exfalso
    unfold step at h
    rw [if_neg hws] at h
    by_cases hbr : c = '\x7b'
    · rw [if_pos hbr] at h
      cases hfc : findClose cs with
      | none =>
        rw [hfc] at h
        simp [stepRest_isTok] at h
      | some br =>
        rw [hfc] at h
        simp at h
    · rw [if_neg hbr] at h
      rw [stepRest_isTok] at h
      simp at h

theorem step_rest_length (A : Atoms) (ctx : Context) (c : Char) (cs : Str) :
    (step A ctx c cs).rest.length < (c :: cs).length := by
  obtain ⟨h1, h2⟩ := step_spec A ctx c cs
  have hlen : (step A ctx c cs).consumed.length + (step A ctx c cs).rest.length
      = (c :: cs).length := by
    rw [← List.length_append, h1]
  have hpos : 0 < (step A ctx c cs).consumed.length := List.length_pos.mpr h2
  omega

/-! ### Fuel adequacy: `|input|` loop iterations always suffice -/

theorem tokenizeFuel_eq_of_le (A : Atoms) :
    ∀ (f : Nat) (ctx : Context) (l : Str), l.length ≤ f →
      tokenizeFuel A f ctx l = some (tokenize A ctx l) := by
  intro f
  induction f using Nat.strong_induction_on with
  | _ f ih =>
    intro ctx l hl
    cases l with
    | nil => cases f <;> simp [tokenizeFuel, tokenize]
    | cons c cs =>
      cases f with
      | zero => simp at hl
      | succ m =>
        have hlt := step_rest_length A ctx c cs
        simp only [List.length_cons] at hlt hl
        have h1 := ih m (Nat.lt_succ_self m) (step A ctx c cs).ctx
          (step A ctx c cs).rest (by omega)
        have h2 := ih cs.length (by omega) (step A ctx c cs).ctx
          (step A ctx c cs).rest (by omega)
        simp only [tokenize, List.length_cons, tokenizeFuel]
        rw [h1, h2]
        simp

theorem tokenize_nil (A : Atoms) (ctx : Context) : tokenize A ctx [] = (ctx, []) := rfl

theorem tokenize_cons (A : Atoms) (ctx : Context) (c : Char) (cs : Str) :
    tokenize A ctx (c :: cs) =
      ((tokenize A (step A ctx c cs).ctx (step A ctx c cs).rest).1,
        if (step A ctx c cs).isTok then
          (step A ctx c cs).consumed ::
            (tokenize A (step A ctx c cs).ctx (step A ctx c cs).rest).2
        else (tokenize A (step A ctx c cs).ctx (step A ctx c cs).rest).2) := by
  have hlt := step_rest_length A ctx c cs
  simp only [List.length_cons] at hlt
  have h2 := tokenizeFuel_eq_of_le A cs.length (step A ctx c cs).ctx
    (step A ctx c cs).rest (by omega)
  conv_lhs => rw [tokenize]
  simp only [List.length_cons, tokenizeFuel]
  rw [h2]
  simp

theorem chunksFuel_eq_of_le (A : Atoms) :
    ∀ (f : Nat) (ctx : Context) (l : Str), l.length ≤ f →
      chunksFuel A f ctx l = some (tokenizeChunks A ctx l) := by
  intro f
  induction f using Nat.strong_induction_on with
  | _ f ih =>
    intro ctx l hl
    cases l with
    | nil => cases f <;> simp [chunksFuel, tokenizeChunks]
    | cons c cs =>
      cases f with
      | zero => simp at hl
      | succ m =>
        have hlt := step_rest_length A ctx c cs
        simp only [List.length_cons] at hlt hl
        have h1 := ih m (Nat.lt_succ_self m) (step A ctx c cs).ctx
          (step A ctx c cs).rest (by omega)
        have h2 := ih cs.length (by omega) (step A ctx c cs).ctx
          (step A ctx c cs).rest (by omega)
        simp only [tokenizeChunks, List.length_cons, chunksFuel]
        rw [h1, h2]
        simp

theorem tokenizeChunks_nil (A : Atoms) (ctx : Context) :
    tokenizeChunks A ctx [] = (ctx, []) := rfl

theorem tokenizeChunks_cons (A : Atoms) (ctx : Context) (c : Char) (cs : Str) :
    tokenizeChunks A ctx (c :: cs) =
      ((tokenizeChunks A (step A ctx c cs).ctx (step A ctx c cs).rest).1,
        ((step A ctx c cs).isTok, (step A ctx c cs).consumed) ::
          (tokenizeChunks A (step A ctx c cs).ctx (step A ctx c cs).rest).2) := by
  have hlt := step_rest_length A ctx c cs
  simp only [List.length_cons] at hlt
  have h2 := chunksFuel_eq_of_le A cs.length (step A ctx c cs).ctx
    (step A ctx c cs).rest (by omega)
  conv_lhs => rw [tokenizeChunks]
  simp only [List.length_cons, chunksFuel]
  rw [h2]
  simp

/-- The token list is the chunk list restricted to the emitted chunks, and
the final contexts agree: `tokenize` and `tokenizeChunks` describe the same
scan. -/
theorem tokenize_eq_chunks (A : Atoms) :
    ∀ (l : Str) (ctx : Context),
      tokenize A ctx l =
        ((tokenizeChunks A ctx l).1,
          (((tokenizeChunks A ctx l).2.filter (fun ch => ch.1)).map (fun ch => ch.2))) := by
  have main : ∀ (n : Nat) (l : Str), l.length ≤ n → ∀ ctx : Context,
      tokenize A ctx l =
        ((tokenizeChunks A ctx l).1,
          (((tokenizeChunks A ctx l).2.filter (fun ch => ch.1)).map (fun ch => ch.2))) := by
    intro n
    induction n with
    | zero =>
      intro l hl ctx
      rw [List.length_eq_zero.mp (Nat.le_zero.mp hl)]
      rfl
    | succ m ih =>
      intro l hl ctx
      cases l with
      | nil => rfl
      | cons c cs =>
        have hlt := step_rest_length A ctx c cs
        simp only [List.length_cons] at hlt hl
        rw [tokenize_cons, tokenizeChunks_cons]
        rw [ih (step A ctx c cs).rest (by omega) (step A ctx c cs).ctx]
        by_cases hT : (step A ctx c cs).isTok <;> simp [hT, List.filter_cons]
  intro l ctx
  exact main l.length l le_rfl ctx

/-- Concatenating the consumed spans of all chunks reconstructs the input. -/
theorem tokenizeChunks_join (A : Atoms) :
    ∀ (l : Str) (ctx : Context),
      ((tokenizeChunks A ctx l).2.map (fun ch => ch.2)).flatten = l := by
  have main : ∀ (n : Nat) (l : Str), l.length ≤ n → ∀ ctx : Context,
      ((tokenizeChunks A ctx l).2.map (fun ch => ch.2)).flatten = l := by
    intro n
    induction n with
    | zero =>
      intro l hl ctx
      rw [List.length_eq_zero.mp (Nat.le_zero.mp hl)]
      rfl
    | succ m ih =>
      intro l hl ctx
      cases l with
      | nil => rfl
      | cons c cs =>
        have hlt := step_rest_length A ctx c cs
        simp only [List.length_cons] at hlt hl
        rw [tokenizeChunks_cons]
        simp only [List.map_cons, List.flatten_cons]
        rw [ih (step A ctx c cs).rest (by omega) (step A ctx c cs).ctx]
        exact (step_spec A ctx c cs).1
  intro l ctx
  exact main l.length l le_rfl ctx

/-- Every chunk that is not an emitted token is a single skipped whitespace
character. -/
theorem tokenizeChunks_ws (A : Atoms) :
    ∀ (l : Str) (ctx : Context) (ch : Bool × Str), ch ∈ (tokenizeChunks A ctx l).2 →
      ch.1 = false → ∃ x, ch.2 = [x] ∧ x.isWhitespace = true := by
  have main : ∀ (n : Nat) (l : Str), l.length ≤ n → ∀ (ctx : Context) (ch : Bool × Str),
      ch ∈ (tokenizeChunks A ctx l).2 → ch.1 = false →
      ∃ x, ch.2 = [x] ∧ x.isWhitespace = true := by
    intro n
    induction n with
    | zero =>
      intro l hl ctx ch hch
      rw [List.length_eq_zero.mp (Nat.le_zero.mp hl)] at hch
      simp [tokenizeChunks_nil] at hch
    | succ m ih =>
      intro l hl ctx ch hch hfalse
      cases l with
      | nil => simp [tokenizeChunks_nil] at hch
      | cons c cs =>
        have hlt := step_rest_length A ctx c cs
        simp only [List.length_cons] at hlt hl
        rw [tokenizeChunks_cons] at hch
        simp only [List.mem_cons] at hch
        rcases hch with hch | hch
        · subst hch
          simp only at hfalse
          obtain ⟨hcons, hws, _, _⟩ := step_not_tok A ctx c cs hfalse
          exact ⟨c, hcons, hws⟩
        · exact ih (step A ctx c cs).rest (by omega) (step A ctx c cs).ctx ch hch hfalse
  intro l ctx ch hch hf
  exact main l.length l le_rfl ctx ch hch hf

/-- Scanning a well-formed control block `{pre}` consumes the whole span,
emits it as one token, and updates the context through `processBlock`. -/
theorem tokenize_block (A : Atoms) (ctx : Context) (pre rest : Str) (h : '\x7d' ∉ pre) :
    tokenize A ctx ('\x7b' :: (pre ++ '\x7d' :: rest)) =
      ((tokenize A (processBlock A ctx pre) rest).1,
        ('\x7b' :: (pre ++ ['\x7d'])) :: (tokenize A (processBlock A ctx pre) rest).2) := by
  rw [tokenize_cons]
  have hstep : step A ctx '\x7b' (pre ++ '\x7d' :: rest) =
      ⟨true, '\x7b' :: (pre ++ ['\x7d']), processBlock A ctx pre, rest⟩ := by
    unfold step
    rw [if_neg (by decide), if_pos rfl, findClose_append pre rest h]
  rw [hstep]
  simp

/-! ### The claims -/

/-- C4: for every input string and every initial context, the scanner
terminates within `|input|` loop iterations — `tokenizeFuel` with fuel
`|input|` returns `some`, because every iteration consumes at least one
character (`step` never consumes an empty span) — and re-scanning the same
string with an equal context yields an equal token sequence. -/
theorem C4_totality (A : Atoms) (ctx : Context) (l : Str) :
    tokenizeFuel A l.length ctx l = some (tokenize A ctx l) ∧
      (∀ (ctx2 : Context) (c : Char) (cs : Str), (step A ctx2 c cs).consumed ≠ []) ∧
      (∀ ctx2 : Context, ctx2 = ctx → tokenize A ctx2 l = tokenize A ctx l) := by
  refine ⟨tokenizeFuel_eq_of_le A l.length ctx l le_rfl, ?_, ?_⟩
  · intro ctx2 c cs
    exact (step_spec A ctx2 c cs).2
  · intro ctx2 h
    rw [h]

/-- Witness for C4 at the concrete input `"?Uk/co"`. -/
theorem C4_totality_w :
    tokenizeFuel specAtoms (chars "?Uk/co").length freshCtx (chars "?Uk/co")
        = some (tokenize specAtoms freshCtx (chars "?Uk/co")) ∧
      (step specAtoms freshCtx 'a' []).consumed ≠ [] ∧
      tokenize specAtoms freshCtx (chars "?Uk/co")
        = tokenize specAtoms freshCtx (chars "?Uk/co") := by
  obtain ⟨h1, h2, h3⟩ := C4_totality specAtoms freshCtx (chars "?Uk/co")
  exact ⟨h1, h2 freshCtx 'a' [], h3 freshCtx rfl⟩

/-- C5: concatenating the consumed spans of all scanner iterations — the
emitted tokens plus the skipped whitespace characters, in scan order —
reconstructs the input exactly; the non-token chunks are single whitespace
characters, and the emitted-token chunks are exactly the `tokenize` output
(with the same final context). -/
theorem C5_token_coverage (A : Atoms) (ctx : Context) (l : Str) :
    ((tokenizeChunks A ctx l).2.map (fun ch => ch.2)).flatten = l ∧
      (∀ ch ∈ (tokenizeChunks A ctx l).2, ch.1 = false →
        ∃ x, ch.2 = [x] ∧ x.isWhitespace = true) ∧
      (tokenize A ctx l).2 =
        ((tokenizeChunks A ctx l).2.filter (fun ch => ch.1)).map (fun ch => ch.2) ∧
      (tokenize A ctx l).1 = (tokenizeChunks A ctx l).1 := by
  refine ⟨tokenizeChunks_join A l ctx,
    fun ch hch hf => tokenizeChunks_ws A l ctx ch hch hf, ?_, ?_⟩
  · rw [tokenize_eq_chunks A l ctx]
  · rw [tokenize_eq_chunks A l ctx]

/-- Witness for C5 at the concrete input `"? de"` (the whitespace-chunk
clause is discharged at the concrete chunk `(false, " ")`). -/
theorem C5_token_coverage_w :
    ((tokenizeChunks specAtoms freshCtx (chars "? de")).2.map (fun ch => ch.2)).flatten
        = chars "? de" ∧
      (∃ x, ((false, chars " ") : Bool × Str).2 = [x] ∧ x.isWhitespace = true) ∧
      (tokenize specAtoms freshCtx (chars "? de")).2 =
        ((tokenizeChunks specAtoms freshCtx (chars "? de")).2.filter
          (fun ch => ch.1)).map (fun ch => ch.2) := by
  obtain ⟨h1, h2, h3, _⟩ := C5_token_coverage specAtoms freshCtx (chars "? de")
  exact ⟨h1, h2 (false, chars " ") (by decide) rfl, h3⟩

/-- C1: when a token's base is a disambiguation key and has no local
definition, `lookup` returns the marker's alternate rendering when a
non-empty marker was supplied and exists for the key, and the primary
rendering otherwise — in particular when the marker is missing or
unrecognized (an unrecognized marker is not an error).  Concretely, `de`
resolves to "decide"/"决定" and `de'E` to "death"/"死亡". -/
theorem C1_disambiguation (A : Atoms) (ctx : Context) (tok : Str) (lang : Lang)
    (base : Str) (m : Option Str) (de : DisEntry)
    (hparse : parse_disambig tok = (base, m))
    (hdef : findAssoc ctx.definitions base = none)
    (hdis : findAssoc DISAMBIG base = some de) :
    (∀ mk e, m = some mk → mk ≠ [] → findAssoc de.alts mk = some e →
        lookup A ctx tok lang = some (e.get lang)) ∧
      (∀ mk, m = some mk → findAssoc de.alts mk = none →
        lookup A ctx tok lang = some (de.primary.get lang)) ∧
      (m = none → lookup A ctx tok lang = some (de.primary.get lang)) ∧
      lookup specAtoms freshCtx (chars "de") Lang.en = some (chars "decide") ∧
      lookup specAtoms freshCtx (chars "de") Lang.zh = some (chars "决定") ∧
      lookup specAtoms freshCtx (chars "de'E") Lang.en = some (chars "death") ∧
      lookup specAtoms freshCtx (chars "de'E") Lang.zh = some (chars "死亡") := by
  refine ⟨?_, ?_, ?_, by decide, by decide, by decide, by decide⟩
  · intro mk e hm hne halts
    subst hm
    simp only [lookup, hparse, hdef, hdis]
    simp [hne, halts]
  · intro mk hm halts
    subst hm
    simp only [lookup, hparse, hdef, hdis]
    by_cases hmk : mk = [] <;> simp [hmk, halts]
  · intro hm
    subst hm
    simp only [lookup, hparse, hdef, hdis]

/-- Witness for C1: the marker case at `de'E`, the unrecognized-marker
fallback at `lo'X`, and the no-marker case at `fe`. -/
theorem C1_disambiguation_w :
    lookup specAtoms freshCtx (chars "de'E") Lang.en = some (chars "death") ∧
      lookup specAtoms freshCtx (chars "lo'X") Lang.en = some (chars "love") ∧
      lookup specAtoms freshCtx (chars "fe") Lang.zh = some (chars "感觉") := by
  obtain ⟨h1, _, _, _⟩ := C1_disambiguation specAtoms freshCtx (chars "de'E") Lang.en
    (chars "de") (some (chars "E"))
    ⟨⟨chars "decide", chars "决定"⟩, [(chars "E", ⟨chars "death", chars "死亡"⟩)]⟩
    (by decide) (by decide) (by decide)
  obtain ⟨_, h2, _, _⟩ := C1_disambiguation specAtoms freshCtx (chars "lo'X") Lang.en
    (chars "lo") (some (chars "X"))
    ⟨⟨chars "love", chars "爱"⟩, [(chars "-", ⟨chars "lose", chars "失去"⟩)]⟩
    (by decide) (by decide) (by decide)
  obtain ⟨_, _, h3, _⟩ := C1_disambiguation specAtoms freshCtx (chars "fe") Lang.zh
    (chars "fe") none
    ⟨⟨chars "feel", chars "感觉"⟩, [(chars "E", ⟨chars "fear", chars "恐惧"⟩)]⟩
    (by decide) (by decide) (by decide)
  exact ⟨h1 (chars "E") ⟨chars "death", chars "死亡"⟩ rfl (by decide) (by decide),
    h2 (chars "X") rfl (by decide), h3 rfl⟩

/-- C2: a local definition for a token's base wins over every other
resolution path and is returned verbatim in every rendering language.
Concretely, with domain `cd` activated and the local definition
`fe=custom`, `fe` resolves to "custom" in both languages rather than to the
disambiguation primary "feel" or any domain meaning. -/
theorem C2_definitions_override (A : Atoms) (ctx : Context) (tok : Str) (lang : Lang)
    (base : Str) (m : Option Str) (v : Str)
    (hparse : parse_disambig tok = (base, m))
    (hdef : findAssoc ctx.definitions base = some v) :
    lookup A ctx tok lang = some v ∧
      lookup specAtoms (define (set_domain specAtoms freshCtx (chars "cd"))
        (chars "fe") (chars "custom")) (chars "fe") Lang.en = some (chars "custom") ∧
      lookup specAtoms (define (set_domain specAtoms freshCtx (chars "cd"))
        (chars "fe") (chars "custom")) (chars "fe") Lang.zh = some (chars "custom") ∧
      chars "cd" ∈ (define (set_domain specAtoms freshCtx (chars "cd"))
        (chars "fe") (chars "custom")).active_domains ∧
      chars "custom" ≠ chars "feel" := by
  refine ⟨?_, by decide, by decide, by decide, by decide⟩
  simp only [lookup, hparse, hdef]

/-- Witness for C2 at the concrete context with `cd` active and
`fe=custom`. -/
theorem C2_definitions_override_w :
    lookup specAtoms (define (set_domain specAtoms freshCtx (chars "cd"))
      (chars "fe") (chars "custom")) (chars "fe") Lang.en = some (chars "custom") := by
  exact (C2_definitions_override specAtoms
    (define (set_domain specAtoms freshCtx (chars "cd")) (chars "fe") (chars "custom"))
    (chars "fe") Lang.en (chars "fe") none (chars "custom") (by decide) (by decide)).1

/-- C7: for a known domain code `X`, scanning the control block `{ns:X}`
appends `X` to the active domains when it is not yet active and leaves the
context unchanged when it is; activating twice equals activating once. -/
theorem C7_idempotent_activation (A : Atoms) (ctx : Context) (X : Str)
    (hdom : containsKey A.domains X = true) :
    (X ∉ ctx.active_domains →
      (set_domain A ctx X).active_domains = ctx.active_domains ++ [X]) ∧
      (X ∈ ctx.active_domains → set_domain A ctx X = ctx) ∧
      set_domain A (set_domain A ctx X) X = set_domain A ctx X ∧
      ('\x7d' ∉ X →
        tokenize A ctx ('\x7b' :: ('n' :: 's' :: ':' :: X ++ ['\x7d'])) =
          (set_domain A ctx X, ['\x7b' :: ('n' :: 's' :: ':' :: X ++ ['\x7d'])])) := by
  refine ⟨?_, ?_, ?_, ?_⟩
  · intro hnot
    unfold set_domain
    rw [if_pos hdom, if_neg hnot]
  · intro hin
    unfold set_domain
    rw [if_pos hdom, if_pos hin]
  · by_cases hin : X ∈ ctx.active_domains
    · have h1 : set_domain A ctx X = ctx := by
        unfold set_domain
        rw [if_pos hdom, if_pos hin]
      rw [h1, h1]
    · have h1 : set_domain A ctx X =
          { ctx with active_domains := ctx.active_domains ++ [X] } := by
        unfold set_domain
        rw [if_pos hdom, if_neg hin]
      rw [h1]
      unfold set_domain
      rw [if_pos hdom, if_pos (by simp)]
  · intro hX
    have hpre : '\x7d' ∉ ('n' :: 's' :: ':' :: X) := by
      simp only [List.mem_cons, not_or]
      exact ⟨by decide, by decide, by decide, hX⟩
    rw [show ('\x7b' :: ('n' :: 's' :: ':' :: X ++ ['\x7d'])) =
      ('\x7b' :: (('n' :: 's' :: ':' :: X) ++ '\x7d' :: [])) from rfl]
    rw [tokenize_block A ctx ('n' :: 's' :: ':' :: X) [] hpre]
    simp [processBlock, tokenize_nil]

/-- Witness for C7 at the known domain code `cd` of the modelled
vocabulary. -/
theorem C7_idempotent_activation_w :
    (set_domain specAtoms freshCtx (chars "cd")).active_domains = [] ++ [chars "cd"] ∧
      set_domain specAtoms (set_domain specAtoms freshCtx (chars "cd")) (chars "cd")
        = set_domain specAtoms freshCtx (chars "cd") ∧
      tokenize specAtoms freshCtx ('\x7b' :: ('n' :: 's' :: ':' :: chars "cd" ++ ['\x7d'])) =
        (set_domain specAtoms freshCtx (chars "cd"),
          ['\x7b' :: ('n' :: 's' :: ':' :: chars "cd" ++ ['\x7d'])]) := by
  obtain ⟨h1, _, h3, h4⟩ := C7_idempotent_activation specAtoms freshCtx (chars "cd")
    (by decide)
  exact ⟨h1 (by decide), h3, h4 (by decide)⟩

/-- C10: activating a string that is not a known domain code never fails
and leaves the context unchanged (the code is silently ignored), while the
`{ns:X}` block is still emitted as a block token. -/
theorem C10_unknown_domain (A : Atoms) (ctx : Context) (X : Str)
    (hdom : containsKey A.domains X = false) :
    set_domain A ctx X = ctx ∧
      ('\x7d' ∉ X →
        tokenize A ctx ('\x7b' :: ('n' :: 's' :: ':' :: X ++ ['\x7d'])) =
          (ctx, ['\x7b' :: ('n' :: 's' :: ':' :: X ++ ['\x7d'])])) := by
  have h1 : set_domain A ctx X = ctx := by
    unfold set_domain
    rw [if_neg (by simp [hdom])]
  refine ⟨h1, ?_⟩
  intro hX
  have hpre : '\x7d' ∉ ('n' :: 's' :: ':' :: X) := by
    simp only [List.mem_cons, not_or]
    exact ⟨by decide, by decide, by decide, hX⟩
  rw [show ('\x7b' :: ('n' :: 's' :: ':' :: X ++ ['\x7d'])) =
    ('\x7b' :: (('n' :: 's' :: ':' :: X) ++ '\x7d' :: [])) from rfl]
  rw [tokenize_block A ctx ('n' :: 's' :: ':' :: X) [] hpre]
  simp [processBlock, tokenize_nil, h1]

/-- Witness for C10 at the unknown code `zz`. -/
theorem C10_unknown_domain_w :
    set_domain specAtoms freshCtx (chars "zz") = freshCtx ∧
      tokenize specAtoms freshCtx ('\x7b' :: ('n' :: 's' :: ':' :: chars "zz" ++ ['\x7d'])) =
        (freshCtx, ['\x7b' :: ('n' :: 's' :: ':' :: chars "zz" ++ ['\x7d'])]) := by
  obtain ⟨h1, h2⟩ := C10_unknown_domain specAtoms freshCtx (chars "zz") (by decide)
  exact ⟨h1, h2 (by decide)⟩

/-! ### Characters of the `[a-z]` class and the fall-through to steps 8-9 -/

theorem az_char_facts (c : Char) (h : azLower c = true) :
    c.isWhitespace = false ∧ bracketChar c = false ∧ c ≠ '\x7b' ∧ c ≠ '\x7d' ∧
      c ≠ ':' ∧ c ≠ '\x27' ∧ c ≠ '-' := by
  have hm : c ∉ ([' ', '\t', '\r', '\n', ':', '\x27', '-',
      '(', ')', '[', ']', '\x7b', '\x7d'] : List Char) := by
    intro hmem
    fin_cases hmem <;> revert h <;> decide
  simp only [List.mem_cons, List.not_mem_nil, or_false, not_or] at hm
  obtain ⟨h1, h2, h3, h4, h5, h6, h7, h8, h9, h10, h11, h12, h13⟩ := hm
  refine ⟨?_, ?_, h12, h13, h5, h6, h7⟩
  · simp [Char.isWhitespace, h1, h2, h3, h4]
  · simp [bracketChar, h8, h9, h10, h11]

theorem domainTokenLen_not_az (a : Char) (l : Str) (h : azLower a = false) :
    domainTokenLen (a :: l) = none := by
  rcases l with _ | ⟨b, _ | ⟨c, _ | ⟨d, _ | ⟨e, _ | ⟨f, r⟩⟩⟩⟩⟩ <;> simp [domainTokenLen, h]

theorem disambigTokenLen_not_az (a : Char) (l : Str) (h : azLower a = false) :
    disambigTokenLen (a :: l) = none := by
  rcases l with _ | ⟨b, _ | ⟨c, _ | ⟨d, r⟩⟩⟩ <;> simp [disambigTokenLen, h]

/-- Does the two-character window at the current position match scanner
step 6 or step 7?  (`false` whenever fewer than two characters remain.) -/
def pairMatch (A : Atoms) (ctx : Context) (c : Char) (cs : Str) : Bool :=
  match cs with
  | d :: _ =>
    (containsKey A.discourse [c, d] || containsKey A.emotion [c, d]) ||
      (azLower c && azLower d && truthy (lookup A ctx [c, d] Lang.en))
  | [] => false

/-- When scanner steps 1-7 all fail at the current position, the iteration
is the unknown-run step: it emits the current character together with the
following characters up to (excluding) the first stop character. -/
theorem step_to_run (A : Atoms) (ctx : Context) (c : Char) (cs : Str)
    (hws : c.isWhitespace = false)
    (hnb : c ≠ '\x7b' ∨ findClose cs = none)
    (hbr : bracketChar c = false)
    (hdl : domainTokenLen (c :: cs) = none)
    (hda : disambigTokenLen (c :: cs) = none)
    (hpm : pairMatch A ctx c cs = false)
    (hlk : truthy (lookup A ctx [c] Lang.en) = false)
    (hty : containsKey A.types [c] = false) :
    step A ctx c cs = ⟨true, c :: cs.takeWhile (fun x => !stopChar A ctx x), ctx,
      cs.dropWhile (fun x => !stopChar A ctx x)⟩ := by
  have hsingle : stepSingle A ctx c cs =
      ⟨true, c :: cs.takeWhile (fun x => !stopChar A ctx x), ctx,
        cs.dropWhile (fun x => !stopChar A ctx x)⟩ := by
    unfold stepSingle
    rw [if_neg (by simp [hlk]), if_neg (by simp [hty])]
  have hrest : stepRest A ctx c cs =
      ⟨true, c :: cs.takeWhile (fun x => !stopChar A ctx x), ctx,
        cs.dropWhile (fun x => !stopChar A ctx x)⟩ := by
    unfold stepRest
    rw [if_neg (by simp [hbr]), hdl, hda]
    cases cs with
    | nil => exact hsingle
    | cons d ds =>
      show (if (containsKey A.discourse [c, d] || containsKey A.emotion [c, d]) = true
          then (⟨true, [c, d], ctx, ds⟩ : StepRes)
          else if (azLower c && azLower d && truthy (lookup A ctx [c, d] Lang.en)) = true
            then (⟨true, [c, d], ctx, ds⟩ : StepRes)
            else stepSingle A ctx c (d :: ds)) = _
      simp only [pairMatch, Bool.or_eq_false_iff] at hpm
      rw [if_neg (by simp [hpm.1.1, hpm.1.2]), if_neg (by simp [hpm.2])]
      exact hsingle
  unfold step
  rw [if_neg (by simp [hws])]
  rcases hnb with hnb | hnb
  · rw [if_neg hnb]
    exact hrest
  · by_cases hc : c = '\x7b'
    · rw [if_pos hc, hnb]
      exact hrest
    · rw [if_neg hc]
      exact hrest

theorem takeWhile_all {p : Char → Bool} {l : Str} (h : ∀ x ∈ l, p x = true) :
    l.takeWhile p = l :=
  List.takeWhile_eq_self_iff.mpr h

theorem dropWhile_all {p : Char → Bool} {l : Str} (h : ∀ x ∈ l, p x = true) :
    l.dropWhile p = [] :=
  List.dropWhile_eq_nil_iff.mpr h

theorem dropWhile_head_not {p : Char → Bool} :
    ∀ (l : Str) (y : Char) (ys : Str), l.dropWhile p = y :: ys → p y = false := by
  intro l
  induction l with
  | nil => intro y ys h; simp [List.dropWhile] at h
  | cons c cs ih =>
    intro y ys h
    rw [List.dropWhile_cons] at h
    by_cases hc : p c
    · rw [if_pos hc] at h
      exact ih y ys h
    · rw [if_neg hc] at h
      obtain ⟨h1, _⟩ := List.cons.inj h
      rw [← h1]
      exact Bool.eq_false_iff.mpr hc

theorem findAssoc_none_of_not_contains {α : Type} (l : List (Str × α)) (k : Str)
    (h : containsKey l k = false) : findAssoc l k = none := by
  unfold containsKey at h
  cases hx : findAssoc l k with
  | none => rfl
  | some v => rw [hx] at h; simp at h

theorem parse_disambig_az (k1 k2 : Char) (h1 : azLower k1 = true)
    (h2 : azLower k2 = true) : parse_disambig [k1, k2] = ([k1, k2], none) := by
  obtain ⟨_, _, _, _, _, hq1, hd1⟩ := az_char_facts k1 h1
  obtain ⟨_, _, _, _, _, hq2, hd2⟩ := az_char_facts k2 h2
  unfold parse_disambig
  rw [if_neg ?hq, if_neg ?hd]
  case hq =>
    intro hmem
    simp only [List.mem_cons, List.not_mem_nil, or_false] at hmem
    rcases hmem with h | h
    · exact hq1 h.symm
    · exact hq2 h.symm
  case hd =>
    rw [show ([k1, k2] : Str).getLast? = some k2 from rfl]
    simp [hd2]

theorem lookup_pair (A : Atoms) (ctx : Context) (k1 k2 : Char) (lang : Lang) (r : Str)
    (h1 : azLower k1 = true) (h2 : azLower k2 = true)
    (hdef : findAssoc ctx.definitions [k1, k2] = none)
    (hdis : findAssoc DISAMBIG [k1, k2] = none)
    (hact : activeFind A ctx.active_domains [k1, k2] lang = some r) :
    lookup A ctx [k1, k2] lang = some r := by
  obtain ⟨_, _, _, _, hc1, _, _⟩ := az_char_facts k1 h1
  obtain ⟨_, _, _, _, hc2, _, _⟩ := az_char_facts k2 h2
  have hparse := parse_disambig_az k1 k2 h1 h2
  have hcol : ¬(':' ∈ ([k1, k2] : Str)) := by
    intro hmem
    simp only [List.mem_cons, List.not_mem_nil, or_false] at hmem
    rcases hmem with h | h
    · exact hc1 h.symm
    · exact hc2 h.symm
  simp only [lookup, hparse, hdef, hdis, if_neg hcol, hact]

theorem lookup_pair_none (A : Atoms) (ctx : Context) (k1 k2 : Char) (lang : Lang)
    (h1 : azLower k1 = true) (h2 : azLower k2 = true)
    (hdef : findAssoc ctx.definitions [k1, k2] = none)
    (hdis : findAssoc DISAMBIG [k1, k2] = none)
    (hact : activeFind A ctx.active_domains [k1, k2] lang = none)
    (hdcF : findAssoc A.discourse [k1, k2] = none)
    (hemF : findAssoc A.emotion [k1, k2] = none)
    (hext : findAssoc A.extended [k1, k2] = none)
    (hcore : coreFind A [k1, k2] = none) :
    lookup A ctx [k1, k2] lang = none := by
  obtain ⟨_, _, _, _, hc1, _, _⟩ := az_char_facts k1 h1
  obtain ⟨_, _, _, _, hc2, _, _⟩ := az_char_facts k2 h2
  have hparse := parse_disambig_az k1 k2 h1 h2
  have hcol : ¬(':' ∈ ([k1, k2] : Str)) := by
    intro hmem
    simp only [List.mem_cons, List.not_mem_nil, or_false] at hmem
    rcases hmem with h | h
    · exact hc1 h.symm
    · exact hc2 h.symm
  simp only [lookup, hparse, hdef, hdis, if_neg hcol, hact, hdcF, hemF, hext, hcore]

/-- Scanner step 7 fires at a two-character lowercase window whose lookup is
truthy (and which is not a discourse/emotion pair). -/
theorem step_pair_resolve (A : Atoms) (ctx : Context) (k1 k2 : Char)
    (h1 : azLower k1 = true) (h2 : azLower k2 = true)
    (hdc : containsKey A.discourse [k1, k2] = false)
    (hem : containsKey A.emotion [k1, k2] = false)
    (hlk : truthy (lookup A ctx [k1, k2] Lang.en) = true) :
    step A ctx k1 [k2] = ⟨true, [k1, k2], ctx, []⟩ := by
  obtain ⟨hws, hbr, hlb, _, _, _, _⟩ := az_char_facts k1 h1
  unfold step
  rw [if_neg (by simp [hws]), if_neg hlb]
  unfold stepRest
  rw [if_neg (by simp [hbr])]
  rw [show domainTokenLen (k1 :: [k2]) = none from rfl]
  rw [show disambigTokenLen (k1 :: [k2]) = none from rfl]
  show (if (containsKey A.discourse [k1, k2] || containsKey A.emotion [k1, k2]) = true
      then (⟨true, [k1, k2], ctx, []⟩ : StepRes)
      else if (azLower k1 && azLower k2 && truthy (lookup A ctx [k1, k2] Lang.en)) = true
        then (⟨true, [k1, k2], ctx, []⟩ : StepRes)
        else stepSingle A ctx k1 [k2]) = _
  rw [if_neg (by simp [hdc, hem]), if_pos (by simp [h1, h2, hlk])]

/-- When the two-character window is lowercase but resolves to nothing
truthy (and is no discourse/emotion pair), the iteration falls through to
steps 8-9. -/
theorem step_pair_to_single (A : Atoms) (ctx : Context) (k1 k2 : Char)
    (h1 : azLower k1 = true) (_h2 : azLower k2 = true)
    (hdc : containsKey A.discourse [k1, k2] = false)
    (hem : containsKey A.emotion [k1, k2] = false)
    (hnt : truthy (lookup A ctx [k1, k2] Lang.en) = false) :
    step A ctx k1 [k2] = stepSingle A ctx k1 [k2] := by
  obtain ⟨hws, hbr, hlb, _, _, _, _⟩ := az_char_facts k1 h1
  unfold step
  rw [if_neg (by simp [hws]), if_neg hlb]
  unfold stepRest
  rw [if_neg (by simp [hbr])]
  rw [show domainTokenLen (k1 :: [k2]) = none from rfl]
  rw [show disambigTokenLen (k1 :: [k2]) = none from rfl]
  show (if (containsKey A.discourse [k1, k2] || containsKey A.emotion [k1, k2]) = true
      then (⟨true, [k1, k2], ctx, []⟩ : StepRes)
      else if (azLower k1 && azLower k2 && truthy (lookup A ctx [k1, k2] Lang.en)) = true
        then (⟨true, [k1, k2], ctx, []⟩ : StepRes)
        else stepSingle A ctx k1 [k2]) = _
  rw [if_neg (by simp [hdc, hem]), if_neg (by simp [hnt])]

/-- A lone lowercase character is always emitted as a one-character token:
by step 8 when it resolves or is a `types` key, and as a one-character
unknown run otherwise. -/
theorem step_az_single (A : Atoms) (ctx : Context) (c : Char)
    (haz : azLower c = true) : step A ctx c [] = ⟨true, [c], ctx, []⟩ := by
  obtain ⟨hws, hbr, hlb, _, _, _, _⟩ := az_char_facts c haz
  unfold step
  rw [if_neg (by simp [hws]), if_neg hlb]
  unfold stepRest
  rw [if_neg (by simp [hbr])]
  rw [show domainTokenLen (c :: []) = none from rfl]
  rw [show disambigTokenLen (c :: []) = none from rfl]
  show stepSingle A ctx c [] = _
  unfold stepSingle
  split
  · rfl
  · split
    · rfl
    · rfl

theorem tokenize_az_single (A : Atoms) (ctx : Context) (c : Char)
    (haz : azLower c = true) : tokenize A ctx [c] = (ctx, [[c]]) := by
  rw [show ([c] : Str) = c :: [] from rfl, tokenize_cons, step_az_single A ctx c haz]
  simp [tokenize_nil]

/-- C6 (amended): an opening `{` with no later `}` never fails the scanner;
the `{` falls through to the unknown-run step, which consumes it together
with the following characters up to the first stop character (whitespace,
bracket or brace, resolvable single character, or `types` key) — and
consumes to the end of the input exactly when no stop character follows. -/
theorem C6_unterminated_block (A : Atoms) (ctx : Context) (cs : Str)
    (hnc : findClose cs = none)
    (hpm : pairMatch A ctx '\x7b' cs = false)
    (hlk : truthy (lookup A ctx ['\x7b'] Lang.en) = false)
    (hty : containsKey A.types ['\x7b'] = false) :
    tokenize A ctx ('\x7b' :: cs) =
        ((tokenize A ctx (cs.dropWhile (fun x => !stopChar A ctx x))).1,
          ('\x7b' :: cs.takeWhile (fun x => !stopChar A ctx x)) ::
            (tokenize A ctx (cs.dropWhile (fun x => !stopChar A ctx x))).2) ∧
      ((∀ x ∈ cs, stopChar A ctx x = false) →
        tokenize A ctx ('\x7b' :: cs) = (ctx, ['\x7b' :: cs])) := by
  have hstep := step_to_run A ctx '\x7b' cs (by decide) (Or.inr hnc) (by decide)
    (domainTokenLen_not_az _ _ (by decide)) (disambigTokenLen_not_az _ _ (by decide))
    hpm hlk hty
  have h1 : tokenize A ctx ('\x7b' :: cs) =
      ((tokenize A ctx (cs.dropWhile (fun x => !stopChar A ctx x))).1,
        ('\x7b' :: cs.takeWhile (fun x => !stopChar A ctx x)) ::
          (tokenize A ctx (cs.dropWhile (fun x => !stopChar A ctx x))).2) := by
    rw [tokenize_cons, hstep]
    simp
  refine ⟨h1, ?_⟩
  intro hall
  have hT : cs.takeWhile (fun x => !stopChar A ctx x) = cs :=
    takeWhile_all (by intro x hx; simp [hall x hx])
  have hD : cs.dropWhile (fun x => !stopChar A ctx x) = [] :=
    dropWhile_all (by intro x hx; simp [hall x hx])
  rw [h1, hT, hD, tokenize_nil]

/-- Counterexample for C6 as stated: in `"{ !"` the `{` is unterminated,
but the scanner does not emit one literal token running to the end of the
input — the literal run stops at the whitespace, and `!` is then emitted
as its own (resolvable) token. -/
theorem C6_counterexample :
    findClose (chars " !") = none ∧
      (tokenize specAtoms freshCtx (chars "\x7b !")).2 = [chars "\x7b", chars "!"] ∧
      (tokenize specAtoms freshCtx (chars "\x7b !")).2 ≠ [chars "\x7b !"] := by
  decide

/-- Witness for C6 at `"{ab"`, where the run does consume to the end. -/
theorem C6_unterminated_block_w :
    tokenize specAtoms freshCtx ('\x7b' :: chars "ab") = (freshCtx, ['\x7b' :: chars "ab"]) := by
  obtain ⟨_, h2⟩ := C6_unterminated_block specAtoms freshCtx (chars "ab")
    (by decide) (by decide) (by decide) (by decide)
  exact h2 (by decide)

/-- C9 (amended): when scanner steps 2-8 all fail at the current position,
the emitted literal run is non-empty, starts with the current character,
and ends exactly at the first following character that is whitespace, a
bracket or brace, a character whose single-character lookup is truthy, or a
`types` key. -/
theorem C9_unknown_run (A : Atoms) (ctx : Context) (c : Char) (cs : Str)
    (hws : c.isWhitespace = false)
    (hnb : c ≠ '\x7b' ∨ findClose cs = none)
    (hbr : bracketChar c = false)
    (hdl : domainTokenLen (c :: cs) = none)
    (hda : disambigTokenLen (c :: cs) = none)
    (hpm : pairMatch A ctx c cs = false)
    (hlk : truthy (lookup A ctx [c] Lang.en) = false)
    (hty : containsKey A.types [c] = false) :
    tokenize A ctx (c :: cs) =
        ((tokenize A ctx (cs.dropWhile (fun x => !stopChar A ctx x))).1,
          (c :: cs.takeWhile (fun x => !stopChar A ctx x)) ::
            (tokenize A ctx (cs.dropWhile (fun x => !stopChar A ctx x))).2) ∧
      c :: cs.takeWhile (fun x => !stopChar A ctx x) ≠ [] ∧
      (∀ x ∈ cs.takeWhile (fun x => !stopChar A ctx x), stopChar A ctx x = false) ∧
      (∀ y ys, cs.dropWhile (fun x => !stopChar A ctx x) = y :: ys →
        stopChar A ctx y = true) := by
  have hstep := step_to_run A ctx c cs hws hnb hbr hdl hda hpm hlk hty
  refine ⟨?_, by simp, ?_, ?_⟩
  · rw [tokenize_cons, hstep]
    simp
  · intro x hx
    have hmem := List.mem_takeWhile_imp hx
    simpa using hmem
  · intro y ys hy
    have hhead := dropWhile_head_not cs y ys hy
    simpa using hhead

/-- Counterexample for C9 as stated: in `"qq>>"`, the unknown run starting
at the first `q` is claimed to end at the `>` that begins the discourse
pair `>>` (a step-6 match), but the scanner's stop test only checks
single-character resolvability, so the run swallows `>>` and one token
`"qq>>"` is emitted. -/
theorem C9_counterexample :
    containsKey specAtoms.discourse (chars ">>") = true ∧
      (tokenize specAtoms freshCtx (chars "qq>>")).2 = [chars "qq>>"] ∧
      (tokenize specAtoms freshCtx (chars "qq>>")).2 ≠ [chars "qq", chars ">>"] := by
  decide

/-- Witness for C9 at the position `q` in `"qq>>"`. -/
theorem C9_unknown_run_w :
    pairMatch specAtoms freshCtx 'q' (chars "q>>") = false ∧
      tokenize specAtoms freshCtx ('q' :: chars "q>>") =
        ((tokenize specAtoms freshCtx ((chars "q>>").dropWhile
            (fun x => !stopChar specAtoms freshCtx x))).1,
          ('q' :: (chars "q>>").takeWhile (fun x => !stopChar specAtoms freshCtx x)) ::
            (tokenize specAtoms freshCtx ((chars "q>>").dropWhile
              (fun x => !stopChar specAtoms freshCtx x))).2) :=
  ⟨by decide, (C9_unknown_run specAtoms freshCtx 'q' (chars "q>>") (by decide)
    (Or.inl (by decide)) (by decide) (by decide) (by decide) (by decide) (by decide)
    (by decide)).1⟩

/-- C3 (amended): tokenization of a two-character lowercase pair is
context-sensitive.  For any vocabulary in which a domain `d` defines a
two-character key `k1k2` that resolves through no other table, scanning
`{ns:d}` followed by the pair emits the pair as one two-character token and
it resolves through `d`'s table; scanning the pair alone with a fresh
context leaves it unresolved — it is emitted either as two one-character
tokens or as one two-character *literal run* (so it can still surface as a
single two-character token, just never as one that resolves).  Concretely,
after `"{ns:cd}!If/bg"` the context has `cd` active and `bg` resolves to
"bug" through domain `cd`. -/
theorem C3_context_sensitive_pair (A : Atoms) (d : Str) (k1 k2 : Char)
    (dd : Domain) (e : Entry) (lang : Lang)
    (hdom : findAssoc A.domains d = some dd)
    (hatom : findAssoc dd.atoms [k1, k2] = some e)
    (hen : e.en ≠ [])
    (h1 : azLower k1 = true) (h2 : azLower k2 = true)
    (hdis : findAssoc DISAMBIG [k1, k2] = none)
    (hdc : containsKey A.discourse [k1, k2] = false)
    (hem : containsKey A.emotion [k1, k2] = false)
    (hext : findAssoc A.extended [k1, k2] = none)
    (hcore : coreFind A [k1, k2] = none)
    (hclose : '\x7d' ∉ d) :
    tokenize A freshCtx ('\x7b' :: (('n' :: 's' :: ':' :: d) ++ '\x7d' :: [k1, k2])) =
        (⟨[d], []⟩, ['\x7b' :: (('n' :: 's' :: ':' :: d) ++ ['\x7d']), [k1, k2]]) ∧
      lookup A ⟨[d], []⟩ [k1, k2] lang = some (e.get lang) ∧
      lookup A freshCtx [k1, k2] lang = none ∧
      ((tokenize A freshCtx [k1, k2]).2 = [[k1], [k2]] ∨
        (tokenize A freshCtx [k1, k2]).2 = [[k1, k2]]) ∧
      (tokenize specAtoms freshCtx (chars "\x7bns:cd\x7d!If/bg")).1.active_domains
          = [chars "cd"] ∧
      lookup specAtoms (tokenize specAtoms freshCtx (chars "\x7bns:cd\x7d!If/bg")).1
        (chars "bg") Lang.en = some (chars "bug") := by
  have hdcF := findAssoc_none_of_not_contains A.discourse [k1, k2] hdc
  have hemF := findAssoc_none_of_not_contains A.emotion [k1, k2] hem
  have hact : ∀ lg, activeFind A [d] [k1, k2] lg = some (e.get lg) := by
    intro lg
    simp [activeFind, hdom, hatom]
  have hlook : ∀ lg, lookup A ⟨[d], []⟩ [k1, k2] lg = some (e.get lg) := fun lg =>
    lookup_pair A ⟨[d], []⟩ k1 k2 lg (e.get lg) h1 h2 rfl hdis (hact lg)
  have htruthy : truthy (lookup A ⟨[d], []⟩ [k1, k2] Lang.en) = true := by
    rw [hlook Lang.en]
    cases hE : e.en with
    | nil => exact absurd hE hen
    | cons a as => simp [truthy, Entry.get, hE]
  have hnone : ∀ lg, lookup A freshCtx [k1, k2] lg = none := fun lg =>
    lookup_pair_none A freshCtx k1 k2 lg h1 h2 rfl hdis rfl hdcF hemF hext hcore
  refine ⟨?_, hlook lang, hnone lang, ?_, by decide, by decide⟩
  · have hpre : '\x7d' ∉ ('n' :: 's' :: ':' :: d) := by
      simp only [List.mem_cons, not_or]
      exact ⟨by decide, by decide, by decide, hclose⟩
    rw [tokenize_block A freshCtx ('n' :: 's' :: ':' :: d) [k1, k2] hpre]
    have hpb : processBlock A freshCtx ('n' :: 's' :: ':' :: d) = (⟨[d], []⟩ : Context) := by
      show set_domain A freshCtx d = _
      unfold set_domain
      rw [if_pos (by simp [containsKey, hdom]), if_neg (by simp [freshCtx])]
      simp [freshCtx]
    rw [hpb]
    rw [show ([k1, k2] : Str) = k1 :: [k2] from rfl, tokenize_cons,
      step_pair_resolve A ⟨[d], []⟩ k1 k2 h1 h2 hdc hem htruthy]
    simp [tokenize_nil]
  · have hnt : truthy (lookup A freshCtx [k1, k2] Lang.en) = false := by
      rw [hnone Lang.en]
      rfl
    rw [show ([k1, k2] : Str) = k1 :: [k2] from rfl, tokenize_cons,
      step_pair_to_single A freshCtx k1 k2 h1 h2 hdc hem hnt]
    unfold stepSingle
    by_cases ha : truthy (lookup A freshCtx [k1] Lang.en) = true
    · rw [if_pos ha]
      left
      simp [tokenize_az_single A freshCtx k2 h2]
    · rw [if_neg ha]
      by_cases hb : containsKey A.types [k1] = true
      · rw [if_pos hb]
        left
        simp [tokenize_az_single A freshCtx k2 h2]
      · rw [if_neg hb]
        by_cases hstop : stopChar A freshCtx k2 = true
        · left
          have ht : List.takeWhile (fun x => !stopChar A freshCtx x) [k2] = [] := by
            simp [List.takeWhile_cons, hstop]
          have hdp : List.dropWhile (fun x => !stopChar A freshCtx x) [k2] = [k2] := by
            simp [List.dropWhile_cons, hstop]
          simp [ht, hdp, tokenize_az_single A freshCtx k2 h2]
        · right
          have hstop2 : stopChar A freshCtx k2 = false := by
            rw [← Bool.not_eq_true]
            exact hstop
          have ht : List.takeWhile (fun x => !stopChar A freshCtx x) [k2] = [k2] := by
            simp [List.takeWhile_cons, hstop2]
          have hdp : List.dropWhile (fun x => !stopChar A freshCtx x) [k2] = [] := by
            simp [List.dropWhile_cons, hstop2]
          simp [ht, hdp, tokenize_nil]

/-- Counterexample for C3 as stated: in the modelled vocabulary, domain
`cd` defines the two-character key `bg`, which resolves through no other
table — the claim's premise — yet scanning `"bg"` alone with a fresh
context emits `bg` as one single two-character token (an unresolved
literal run), contradicting "does not emit k as a single two-character
token". -/
theorem C3_counterexample :
    findAssoc specAtoms.domains (chars "cd") =
        some ⟨⟨chars "code", chars "代码"⟩,
          [(chars "fn", ⟨chars "function", chars "函数"⟩),
            (chars "bg", ⟨chars "bug", chars "错误"⟩)]⟩ ∧
      lookup specAtoms freshCtx (chars "bg") Lang.en = none ∧
      (tokenize specAtoms freshCtx (chars "bg")).2 = [chars "bg"] ∧
      (chars "bg").length = 2 := by
  decide

/-- Witness for C3 at the modelled vocabulary, domain `cd`, key `bg`. -/
theorem C3_context_sensitive_pair_w :
    tokenize specAtoms freshCtx
        ('\x7b' :: (('n' :: 's' :: ':' :: chars "cd") ++ '\x7d' :: ['b', 'g'])) =
        (⟨[chars "cd"], []⟩,
          ['\x7b' :: (('n' :: 's' :: ':' :: chars "cd") ++ ['\x7d']), ['b', 'g']]) ∧
      lookup specAtoms ⟨[chars "cd"], []⟩ ['b', 'g'] Lang.en = some (chars "bug") ∧
      ((tokenize specAtoms freshCtx ['b', 'g']).2 = [['b'], ['g']] ∨
        (tokenize specAtoms freshCtx ['b', 'g']).2 = [['b', 'g']]) := by
  obtain ⟨ha, hb, _, hc, _, _⟩ := C3_context_sensitive_pair specAtoms (chars "cd") 'b' 'g'
    ⟨⟨chars "code", chars "代码"⟩,
      [(chars "fn", ⟨chars "function", chars "函数"⟩),
        (chars "bg", ⟨chars "bug", chars "错误"⟩)]⟩
    ⟨chars "bug", chars "错误"⟩ Lang.en (by decide) (by decide) (by decide) (by decide)
    (by decide) (by decide) (by decide) (by decide) (by decide) (by decide) (by decide)
  exact ⟨ha, hb, hc⟩

/-! ### The renderer loop: which `types` token supplies the prefix -/

/-- A token that sets the message type in the renderer loop: not a block,
and a key of the `types` table. -/
def typesTok (A : Atoms) (t : Str) : Bool :=
  !isBlock t && containsKey A.types t

/-- The body contribution of one token in the renderer loop (`none` for
blocks and `types` tokens, which are excluded from the body). -/
def bodyPart (A : Atoms) (ctx : Context) (lang : Lang) (t : Str) : Option Str :=
  if isBlock t then none
  else
    match findAssoc A.types t with
    | some _ => none
    | none => some (bodyRender A ctx lang t)

def bodyParts (A : Atoms) (ctx : Context) (lang : Lang) (ts : List Str) : List Str :=
  ts.filterMap (bodyPart A ctx lang)

/-- The message-type accumulator of the renderer loop: each non-block
`types` token overwrites it. -/
def lastTypeRender (A : Atoms) (lang : Lang) (acc : Str) : List Str → Str
  | [] => acc
  | t :: ts =>
    lastTypeRender A lang
      (if isBlock t then acc
        else
          match findAssoc A.types t with
          | some e => e.get lang
          | none => acc) ts

theorem typesTok_some (A : Atoms) (t : Str) (hp : typesTok A t = true) :
    isBlock t = false ∧ ∃ e, findAssoc A.types t = some e := by
  unfold typesTok at hp
  simp only [Bool.and_eq_true] at hp
  refine ⟨by simpa using hp.1, ?_⟩
  have hc := hp.2
  unfold containsKey at hc
  cases hx : findAssoc A.types t with
  | none => rw [hx] at hc; simp at hc
  | some e => exact ⟨e, rfl⟩

theorem renderFold_char (A : Atoms) (ctx : Context) (lang : Lang) :
    ∀ (ts : List Str) (m0 : Str) (p0 : List Str),
      renderFold A ctx lang (m0, p0) ts =
        (lastTypeRender A lang m0 ts, p0 ++ bodyParts A ctx lang ts) := by
  intro ts
  induction ts with
  | nil => intro m0 p0; simp [renderFold, lastTypeRender, bodyParts]
  | cons t ts ih =>
    intro m0 p0
    by_cases hb : isBlock t = true
    · simp [renderFold, lastTypeRender, bodyParts, List.filterMap_cons, bodyPart, hb, ih]
    · have hb2 : isBlock t = false := by simpa using hb
      cases hx : findAssoc A.types t with
      | some e =>
        simp [renderFold, lastTypeRender, bodyParts, List.filterMap_cons, bodyPart,
          hb2, hx, ih]
      | none =>
        simp [renderFold, lastTypeRender, bodyParts, List.filterMap_cons, bodyPart,
          hb2, hx, ih]

theorem lastTypeRender_eq (A : Atoms) (lang : Lang) :
    ∀ (ts : List Str) (acc : Str),
      lastTypeRender A lang acc ts =
        (match ts.reverse.find? (typesTok A) with
          | some t =>
            match findAssoc A.types t with
            | some e => e.get lang
            | none => acc
          | none => acc) := by
  intro ts
  induction ts with
  | nil => intro acc; rfl
  | cons t ts ih =>
    intro acc
    rw [show lastTypeRender A lang acc (t :: ts) = lastTypeRender A lang
      (if isBlock t then acc
        else
          match findAssoc A.types t with
          | some e => e.get lang
          | none => acc) ts from rfl]
    rw [ih]
    rw [List.reverse_cons, List.find?_append]
    cases hf : ts.reverse.find? (typesTok A) with
    | some t2 =>
      obtain ⟨_, e, he⟩ := typesTok_some A t2 (List.find?_some hf)
      simp [Option.or, he]
    | none =>
      by_cases hp : typesTok A t = true
      · obtain ⟨hb, e, he⟩ := typesTok_some A t hp
        simp [Option.or, List.find?, hp, hb, he]
      · have hp2 : typesTok A t = false := by simpa using hp
        by_cases hb : isBlock t = true
        · simp [Option.or, List.find?, hp2, hb]
        · have hb2 : isBlock t = false := by simpa using hb
          have hcf : findAssoc A.types t = none := by
            unfold typesTok at hp2
            simp [hb2] at hp2
            exact findAssoc_none_of_not_contains _ _ hp2
          simp [Option.or, List.find?, hp2, hb2, hcf]

/-- C8 (amended): for every message whose token sequence contains two or
more `types` tokens, both renderers use the *last* such token (the last
non-block `types` key in scan order, i.e. the first in the reversed token
list) as the parenthesized message-type prefix — each `types` token
overwrites the accumulator — and `types` tokens contribute nothing to the
rendered body (`bodyPart` is `none` for them). -/
theorem C8_last_type_prefix (A : Atoms) (msg : Str)
    (h2 : 2 ≤ (((tokenize A freshCtx msg).2).filter (typesTok A)).length) :
    ∃ tl e, ((tokenize A freshCtx msg).2).reverse.find? (typesTok A) = some tl ∧
      findAssoc A.types tl = some e ∧
      translate_to_english A msg =
        renderResult (e.get Lang.en)
          (List.intercalate (chars " ")
            (bodyParts A (tokenize A freshCtx msg).1 Lang.en
              (tokenize A freshCtx msg).2)) ∧
      translate_to_chinese A msg =
        renderResult (e.get Lang.zh)
          (List.intercalate []
            (bodyParts A (tokenize A freshCtx msg).1 Lang.zh
              (tokenize A freshCtx msg).2)) ∧
      (∀ t ∈ (tokenize A freshCtx msg).2, typesTok A t = true →
        bodyPart A (tokenize A freshCtx msg).1 Lang.en t = none ∧
        bodyPart A (tokenize A freshCtx msg).1 Lang.zh t = none) := by
  have htoksne : (tokenize A freshCtx msg).2 ≠ [] := by
    intro h0
    rw [h0] at h2
    simp at h2
  have hfne : ((tokenize A freshCtx msg).2).filter (typesTok A) ≠ [] := by
    intro h0
    rw [h0] at h2
    simp at h2
  have hfind : ∃ tl, ((tokenize A freshCtx msg).2).reverse.find? (typesTok A) = some tl := by
    cases hf : ((tokenize A freshCtx msg).2).reverse.find? (typesTok A) with
    | some t => exact ⟨t, rfl⟩
    | none =>
      exfalso
      rw [List.find?_eq_none] at hf
      apply hfne
      rw [List.filter_eq_nil_iff]
      intro a ha
      exact hf a (List.mem_reverse.mpr ha)
  obtain ⟨tl, hf⟩ := hfind
  obtain ⟨_, e, hfa⟩ := typesTok_some A tl (List.find?_some hf)
  refine ⟨tl, e, hf, hfa, ?_, ?_, ?_⟩
  · simp only [translate_to_english]
    rw [if_neg htoksne, renderFold_char, lastTypeRender_eq, hf]
    simp [hfa]
  · simp only [translate_to_chinese]
    rw [if_neg htoksne, renderFold_char, lastTypeRender_eq, hf]
    simp [hfa]
  · intro t _ hty
    obtain ⟨hb, e2, he2⟩ := typesTok_some A t hty
    constructor <;> simp [bodyPart, hb, he2]

/-- Counterexample for C8 as stated: the message `"?."` has two `types`
tokens; its first types token is `?` ("query"), but the rendered prefix is
"command" — the rendering of the *last* types token `.` — so the claim
"uses the first such types token as the message-type prefix" fails. -/
theorem C8_counterexample :
    (tokenize specAtoms freshCtx (chars "?.")).2 = [chars "?", chars "."] ∧
      containsKey specAtoms.types (chars "?") = true ∧
      containsKey specAtoms.types (chars ".") = true ∧
      findAssoc specAtoms.types (chars "?") = some ⟨chars "query", chars "问"⟩ ∧
      translate_to_english specAtoms (chars "?.") = chars "(command) " ∧
      translate_to_english specAtoms (chars "?.") ≠ chars "(query) " := by
  decide

/-- Witness for C8 at the concrete message `"?."`. -/
theorem C8_last_type_prefix_w :
    2 ≤ (((tokenize specAtoms freshCtx (chars "?.")).2).filter (typesTok specAtoms)).length ∧
      (∃ tl e,
        ((tokenize specAtoms freshCtx (chars "?.")).2).reverse.find? (typesTok specAtoms)
            = some tl ∧
          findAssoc specAtoms.types tl = some e ∧
          translate_to_english specAtoms (chars "?.") =
            renderResult (e.get Lang.en)
              (List.intercalate (chars " ")
                (bodyParts specAtoms (tokenize specAtoms freshCtx (chars "?.")).1 Lang.en
                  (tokenize specAtoms freshCtx (chars "?.")).2)) ∧
          translate_to_chinese specAtoms (chars "?.") =
            renderResult (e.get Lang.zh)
              (List.intercalate []
                (bodyParts specAtoms (tokenize specAtoms freshCtx (chars "?.")).1 Lang.zh
                  (tokenize specAtoms freshCtx (chars "?.")).2)) ∧
          (∀ t ∈ (tokenize specAtoms freshCtx (chars "?.")).2, typesTok specAtoms t = true →
            bodyPart specAtoms (tokenize specAtoms freshCtx (chars "?.")).1 Lang.en t = none ∧
            bodyPart specAtoms (tokenize specAtoms freshCtx (chars "?.")).1 Lang.zh t = none)) := by
  refine ⟨by decide, ?_⟩
  exact C8_last_type_prefix specAtoms (chars "?.") (by decide)
